import Mathlib

/-!
Verification of `split_srt.py`: an SRT subtitle-file splitter.

The embedding models the source faithfully:
* times are exact rationals (`ℚ`); the Python source computes with floats,
  and every claim under study concerns exact arithmetic relations
  (`h*3600 + m*60 + s + ms/1000`, floor semantics, interval comparisons);
* Python strings are `List Char`; `str.split`, `str.strip`, `int(...)` and
  f-string `{n:02d}` formatting are modelled below by `pysplit`, `pystrip`,
  `pyInt` and `intPad`;
* a Python function that can raise an uncaught exception is `Option`-valued
  (`none` = the exception propagates);
* the `while` loop of `split_srt_by_time` is a fuel-indexed recursion whose
  fuel exhaustion (`none`) models non-termination; `partition` supplies fuel
  provably sufficient whenever `chunk_duration > overlap` (the case in which
  the Python loop terminates).
-/

/- The arithmetic of `Rat` is `@[irreducible]` in Batteries, which only blocks
the elaborator's evaluation of `decide`; restore reducibility inside this file
so that concrete runs of the embedded program can be checked by `decide`. -/
attribute [local semireducible] Rat.add Rat.sub Rat.mul Rat.inv Rat.ofScientific

namespace SplitSrt

/-- One subtitle entry, as built by `parse_srt_file` (source lines 50-55):
a dict with keys `number`, `start`, `end`, `text`. -/
structure Subtitle where
  number : ℤ
  start : ℚ
  «end» : ℚ
  text : List Char
deriving DecidableEq

/-- One chunk, as built by `split_srt_by_time` (source lines 92-99): a dict
with keys `number`, `start_time`, `end_time`, `subtitles`, `planned_start`,
`planned_end`. -/
structure Chunk where
  number : ℕ
  start_time : ℚ
  end_time : ℚ
  subtitles : List Subtitle
  planned_start : ℚ
  planned_end : ℚ
deriving DecidableEq

/-- The membership test of source lines 83-84:
`(sub['start'] >= chunk_start and sub['start'] < chunk_end) or
 (sub['end'] > chunk_start and sub['start'] < chunk_end)`. -/
def inChunk (chunk_start chunk_end : ℚ) (sub : Subtitle) : Prop :=
  (chunk_start ≤ sub.start ∧ sub.start < chunk_end) ∨
    (chunk_start < sub.«end» ∧ sub.start < chunk_end)

instance inChunk.decidable (a b : ℚ) (s : Subtitle) : Decidable (inChunk a b s) := by
  unfold inChunk; infer_instance

/-- Python `min(sub['start'] for sub in subs)` (source line 89). The `[]` case
never arises in the source (`min` of an empty generator raises); `0` is a
junk value for totality. -/
def minStartList : List Subtitle → ℚ
  | [] => 0
  | s :: rest => rest.foldl (fun acc x => min acc x.start) s.start

/-- Python `max(sub['end'] for sub in subs)` (source lines 68 and 90). -/
def maxEndList : List Subtitle → ℚ
  | [] => 0
  | s :: rest => rest.foldl (fun acc x => max acc x.«end») s.«end»

/-- The step `next_chunk_start = chunk_end - overlap_duration` where
`chunk_end = chunk_start + chunk_duration` (source lines 74 and 77). -/
def next_chunk_start (chunk_start chunk_duration overlap_duration : ℚ) : ℚ :=
  (chunk_start + chunk_duration) - overlap_duration

/-- The `while chunk_start < total_duration` loop of source lines 73-108,
as a fuel-indexed recursion.  One fuel unit is one loop iteration; running
out of fuel returns `none` (models divergence; `partition` always passes
enough fuel for every terminating run). -/
def split_loop (subtitles : List Subtitle) (chunk_duration overlap_duration total_duration : ℚ) :
    ℕ → ℚ → ℕ → Option (List Chunk)
  | 0, _, _ => none
  | fuel + 1, chunk_start, chunk_number =>
    if chunk_start < total_duration then
      let chunk_end := chunk_start + chunk_duration
      let nextStart := next_chunk_start chunk_start chunk_duration overlap_duration
      let chunk_subtitles := subtitles.filter (fun sub => decide (inChunk chunk_start chunk_end sub))
      let newChunks : List Chunk :=
        if chunk_subtitles = [] then []
        else [{ number := chunk_number
                start_time := minStartList chunk_subtitles
                end_time := maxEndList chunk_subtitles
                subtitles := chunk_subtitles
                planned_start := chunk_start
                planned_end := chunk_end }]
      if total_duration ≤ nextStart then some newChunks
      else
        (split_loop subtitles chunk_duration overlap_duration total_duration fuel
            nextStart (chunk_number + newChunks.length)).map (newChunks ++ ·)
    else some []

/-- Fuel that suffices for the loop whenever `0 < step` (proved below);
`step = chunk_duration - overlap_duration` is how far `chunk_start` moves
per iteration. -/
def fuelFor (total_duration step : ℚ) : ℕ := (⌊total_duration / step⌋).toNat + 2

/-- The body of `split_srt_by_time` after the minutes-to-seconds conversion:
the partitioner of the spec, whose contract takes `chunk_duration` and
`overlap_duration` in seconds (source lines 64-110). -/
def partition (subtitles : List Subtitle) (chunk_duration overlap_duration : ℚ) :
    Option (List Chunk) :=
  if subtitles = [] then some []
  else
    split_loop subtitles chunk_duration overlap_duration (maxEndList subtitles)
      (fuelFor (maxEndList subtitles) (chunk_duration - overlap_duration)) 0 1

/-- Source `split_srt_by_time(subtitles, chunk_duration_minutes, overlap_minutes)`
(source lines 59-110): converts minutes to seconds (lines 61-62), then runs
the partitioning loop. -/
def split_srt_by_time (subtitles : List Subtitle)
    (chunk_duration_minutes overlap_minutes : ℚ) : Option (List Chunk) :=
  partition subtitles (chunk_duration_minutes * 60) (overlap_minutes * 60)

/-- Nonempty-interval overlap of `[s1, e1)` and `[s2, e2)`. -/
def intervalsOverlap (s1 e1 s2 e2 : ℚ) : Prop := max s1 s2 < min e1 e2

instance intervalsOverlap.decidable (a b c d : ℚ) : Decidable (intervalsOverlap a b c d) := by
  unfold intervalsOverlap; infer_instance

/-! ### Python string primitives

Python strings are modelled as `List Char`.  `pysplit`, `pystrip` and
`pyInt` model `str.split(sep)` (non-empty separator), `str.strip()` and
`int(str)`; `intPad w` models the f-string `{n:0wd}`.  `pyInt` accepts an
optional sign followed by ASCII digits after stripping whitespace (the
underscore digit-grouping and non-ASCII digits Python also tolerates play
no role in any claim). -/

/-- The whitespace set of Python `str.strip()`. -/
def pyIsSpace (c : Char) : Bool :=
  c = ' ' || c = '\t' || c = '\n' || c = '\r' || c = '\x0b' || c = '\x0c'

/-- ASCII digit test (`'0'` to `'9'`). -/
def isDigitChar (c : Char) : Bool := 48 ≤ c.toNat && c.toNat ≤ 57

/-- Python `str.strip()`. -/
def pystrip (s : List Char) : List Char :=
  ((s.dropWhile pyIsSpace).reverse.dropWhile pyIsSpace).reverse

/-- Decimal digits of `n`, most significant first, via repeated `divmod`;
the fuel argument only needs `fuel ≥ number of digits`. -/
def toDigitsAux : ℕ → ℕ → List Char → List Char
  | 0, _, acc => acc
  | fuel + 1, n, acc =>
    if n < 10 then Char.ofNat (48 + n % 10) :: acc
    else toDigitsAux fuel (n / 10) (Char.ofNat (48 + n % 10) :: acc)

def natDigitChars (n : ℕ) : List Char := toDigitsAux (n + 1) n []

/-- Decimal rendering of `n` zero-padded to width `w`. -/
def natPad (w : ℕ) (n : ℕ) : List Char :=
  List.replicate (w - (natDigitChars n).length) '0' ++ natDigitChars n

/-- Python `f"{i:0wd}"`: the sign occupies one column of the field width. -/
def intPad (w : ℕ) (i : ℤ) : List Char :=
  if i < 0 then '-' :: natPad (w - 1) i.natAbs else natPad w i.natAbs

/-- Python `int(float)`: truncation toward zero. -/
def pytrunc (x : ℚ) : ℤ := if x < 0 then -⌊-x⌋ else ⌊x⌋

/-- Python `a // b` on floats (floor division). -/
def pyfloordiv (a b : ℚ) : ℚ := (⌊a / b⌋ : ℚ)

/-- Python `a % b` on floats: `a - b * (a // b)`, sign follows `b`. -/
def pymod (a b : ℚ) : ℚ := a - b * ⌊a / b⌋

/-- Source `seconds_to_srt_time(seconds)` (lines 14-20):
`f"{hours:02d}:{minutes:02d}:{secs:02d},{ms:03d}"` with
`hours = int(seconds // 3600)`, `minutes = int((seconds % 3600) // 60)`,
`secs = int(seconds % 60)`, `ms = int((seconds % 1) * 1000)`. -/
def seconds_to_srt_time (seconds : ℚ) : List Char :=
  let hours := pytrunc (pyfloordiv seconds 3600)
  let minutes := pytrunc (pyfloordiv (pymod seconds 3600) 60)
  let secs := pytrunc (pymod seconds 60)
  let ms := pytrunc (pymod seconds 1 * 1000)
  intPad 2 hours ++ ':' :: (intPad 2 minutes ++ ':' :: (intPad 2 secs ++ ',' :: intPad 3 ms))

/-- Base-10 value of a digit string (used after `isDigitChar` screening). -/
def parseDigitsNat (ds : List Char) : ℕ :=
  ds.foldl (fun acc c => 10 * acc + (c.toNat - 48)) 0

def parseDigits (ds : List Char) : Option ℕ :=
  if ds.isEmpty then none
  else if ds.all isDigitChar then some (parseDigitsNat ds) else none

/-- Python `int(s)`: strip whitespace, optional sign, nonempty digit run;
`none` models the `ValueError`. -/
def pyInt (s : List Char) : Option ℤ :=
  let t := pystrip s
  if t.headD ' ' = '-' then (parseDigits t.tail).map (fun n => -(n : ℤ))
  else if t.headD ' ' = '+' then (parseDigits t.tail).map (fun n => (n : ℤ))
  else (parseDigits t).map (fun n => (n : ℤ))

/-- Leftmost occurrence of the (non-empty) separator: the part before it and
the part after it. -/
def splitFirst (sep : List Char) : List Char → Option (List Char × List Char)
  | [] => none
  | c :: rest =>
    if sep.isPrefixOf (c :: rest) then some ([], (c :: rest).drop sep.length)
    else
      match splitFirst sep rest with
      | none => none
      | some (before, after) => some (c :: before, after)

/-- Worker for `pysplit`; one fuel unit per separator occurrence consumed,
`s.length + 1` always suffices. -/
def pysplitAux (sep : List Char) : ℕ → List Char → List (List Char)
  | 0, s => [s]
  | fuel + 1, s =>
    match splitFirst sep s with
    | none => [s]
    | some (before, after) => before :: pysplitAux sep fuel after

/-- Python `s.split(sep)` for non-empty `sep` (an empty separator raises in
Python and is never used by the source). -/
def pysplit (s sep : List Char) : List (List Char) :=
  if sep.isEmpty then [s] else pysplitAux sep (s.length + 1) s

/-- Python `sub in s` (substring containment). -/
def containsSub (s sub : List Char) : Bool := (splitFirst sub s).isSome

/-- Source `parse_srt_time(time_str)` (lines 6-12):
`time_part, ms_part = time_str.split(',')`,
`h, m, s = map(int, time_part.split(':'))`, `ms = int(ms_part)`,
`h * 3600 + m * 60 + s + ms / 1000`; `none` models any `ValueError`. -/
def parse_srt_time (time_str : List Char) : Option ℚ :=
  match pysplit time_str [','] with
  | [time_part, ms_part] =>
    match pysplit time_part [':'] with
    | [hs, ms, ss] =>
      match pyInt hs, pyInt ms, pyInt ss, pyInt ms_part with
      | some h, some m, some s, some milli =>
        some ((h : ℚ) * 3600 + (m : ℚ) * 60 + (s : ℚ) + (milli : ℚ) / 1000)
      | _, _, _, _ => none
    | _ => none
  | _ => none

/-- The separator `" --> "` of source lines 42-43. -/
def srtArrow : List Char := (" --> ").data

/-- Outcome of processing one block in the loop of source lines 31-55. -/
inductive BlockResult where
  | skip : BlockResult
  | fatal : BlockResult
  | entry : Subtitle → BlockResult
deriving DecidableEq

/-- One iteration of the block loop (source lines 31-55): blocks with fewer
than 3 lines, a non-integer first line (the `ValueError` is caught by the
`try`/`except` and the block skipped), or no `" --> "` in line 2 are
silently skipped; a malformed timestamp (or a line 2 that splits into other
than two parts) raises an uncaught error — `fatal`. -/
def parse_block (block : List Char) : BlockResult :=
  match pysplit (pystrip block) ['\n'] with
  | l0 :: l1 :: l2 :: rest =>
    match pyInt l0 with
    | none => BlockResult.skip
    | some number =>
      if containsSub l1 srtArrow then
        match pysplit l1 srtArrow with
        | [st, et] =>
          match parse_srt_time (pystrip st) with
          | none => BlockResult.fatal
          | some start_seconds =>
            match parse_srt_time (pystrip et) with
            | none => BlockResult.fatal
            | some end_seconds =>
              BlockResult.entry ⟨number, start_seconds, end_seconds,
                List.intercalate ['\n'] (l2 :: rest)⟩
        | _ => BlockResult.fatal
      else BlockResult.skip
  | _ => BlockResult.skip

/-- The block loop of source lines 31-55 over the list of blocks: entries
accumulate in order, a `fatal` block aborts the whole parse (the exception
propagates out of `parse_srt_file`, so no entry list is returned). -/
def parse_blocks : List (List Char) → Option (List Subtitle)
  | [] => some []
  | block :: rest =>
    match parse_block block with
    | BlockResult.skip => parse_blocks rest
    | BlockResult.fatal => none
    | BlockResult.entry e => (parse_blocks rest).map (e :: ·)

/-- Source `parse_srt_file` (lines 22-57) on the file's text:
`content.strip().split('\n\n')`, then the block loop.  (Reading the file
from disk is elided; the claims concern the parse of its contents.) -/
def parse_srt_file (content : List Char) : Option (List Subtitle) :=
  parse_blocks (pysplit (pystrip content) ['\n', '\n'])

/-! ### Decimal rendering and parsing lemmas -/

theorem digitChar_toNat : ∀ d : ℕ, d < 10 → (Char.ofNat (48 + d)).toNat = 48 + d := by decide

theorem isDigitChar_digitChar : ∀ d : ℕ, d < 10 → isDigitChar (Char.ofNat (48 + d)) = true := by
  decide

theorem isDigitChar_toNat {c : Char} (h : isDigitChar c = true) :
    48 ≤ c.toNat ∧ c.toNat ≤ 57 := by
  unfold isDigitChar at h
  rw [Bool.and_eq_true, decide_eq_true_eq, decide_eq_true_eq] at h
  exact h

theorem ne_of_toNat_ne {c x : Char} (h : c.toNat ≠ x.toNat) : c ≠ x :=
  fun hh => h (congrArg Char.toNat hh)

theorem pyIsSpace_of_digit {c : Char} (h : isDigitChar c = true) : pyIsSpace c = false := by
  obtain ⟨h1, h2⟩ := isDigitChar_toNat h
  unfold pyIsSpace
  have e1 : c ≠ ' ' := ne_of_toNat_ne (by rw [show (' ').toNat = 32 from rfl]; omega)
  have e2 : c ≠ '\t' := ne_of_toNat_ne (by rw [show ('\t').toNat = 9 from rfl]; omega)
  have e3 : c ≠ '\n' := ne_of_toNat_ne (by rw [show ('\n').toNat = 10 from rfl]; omega)
  have e4 : c ≠ '\r' := ne_of_toNat_ne (by rw [show ('\r').toNat = 13 from rfl]; omega)
  have e5 : c ≠ '\x0b' := ne_of_toNat_ne (by rw [show ('\x0b').toNat = 11 from rfl]; omega)
  have e6 : c ≠ '\x0c' := ne_of_toNat_ne (by rw [show ('\x0c').toNat = 12 from rfl]; omega)
  simp [e1, e2, e3, e4, e5, e6]

theorem toDigitsAux_acc : ∀ (fuel n : ℕ) (acc : List Char),
    toDigitsAux fuel n acc = toDigitsAux fuel n [] ++ acc := by
  intro fuel
  induction fuel with
  | zero => intro n acc; rfl
  | succ fuel ih =>
    intro n acc
    rw [toDigitsAux, toDigitsAux]
    by_cases h10 : n < 10
    · rw [if_pos h10, if_pos h10]; rfl
    · rw [if_neg h10, if_neg h10, ih (n / 10) (Char.ofNat (48 + n % 10) :: acc),
        ih (n / 10) [Char.ofNat (48 + n % 10)], List.append_assoc]
      rfl

theorem toDigitsAux_all_digits : ∀ (fuel n : ℕ) (acc : List Char),
    acc.all isDigitChar = true → (toDigitsAux fuel n acc).all isDigitChar = true := by
  intro fuel
  induction fuel with
  | zero => intro n acc h; exact h
  | succ fuel ih =>
    intro n acc h
    rw [toDigitsAux]
    have hc : (Char.ofNat (48 + n % 10) :: acc).all isDigitChar = true := by
      rw [List.all_cons, isDigitChar_digitChar (n % 10) (Nat.mod_lt n (by omega)), h]
      rfl
    by_cases h10 : n < 10
    · rw [if_pos h10]; exact hc
    · rw [if_neg h10]; exact ih (n / 10) _ hc

theorem natDigitChars_all_digits (n : ℕ) : (natDigitChars n).all isDigitChar = true :=
  toDigitsAux_all_digits (n + 1) n [] rfl

theorem natDigitChars_ne_nil (n : ℕ) : natDigitChars n ≠ [] := by
  unfold natDigitChars
  rw [toDigitsAux]
  by_cases h10 : n < 10
  · rw [if_pos h10]; exact List.cons_ne_nil _ _
  · rw [if_neg h10, toDigitsAux_acc]
    exact fun h => by simpa using congrArg List.length h

theorem parseDigitsNat_toDigitsAux : ∀ (fuel n : ℕ), n < fuel →
    parseDigitsNat (toDigitsAux fuel n []) = n := by
  intro fuel
  induction fuel with
  | zero => intro n h; omega
  | succ fuel ih =>
    intro n hn
    rw [toDigitsAux]
    by_cases h10 : n < 10
    · rw [if_pos h10]
      unfold parseDigitsNat
      rw [List.foldl_cons, List.foldl_nil, digitChar_toNat (n % 10) (Nat.mod_lt n (by omega))]
      omega
    · rw [if_neg h10, toDigitsAux_acc]
      unfold parseDigitsNat
      rw [List.foldl_append, List.foldl_cons, List.foldl_nil]
      have hih := ih (n / 10) (by omega)
      unfold parseDigitsNat at hih
      rw [hih, digitChar_toNat (n % 10) (Nat.mod_lt n (by omega))]
      omega

theorem parseDigitsNat_natDigitChars (n : ℕ) : parseDigitsNat (natDigitChars n) = n :=
  parseDigitsNat_toDigitsAux (n + 1) n (Nat.lt_succ_self n)

theorem natPad_all_digits (w n : ℕ) : (natPad w n).all isDigitChar = true := by
  unfold natPad
  rw [List.all_append, natDigitChars_all_digits, Bool.and_true]
  rw [List.all_eq_true]
  intro c hc
  rw [List.eq_of_mem_replicate hc]
  decide

theorem natPad_ne_nil (w n : ℕ) : natPad w n ≠ [] := by
  unfold natPad
  intro h
  rcases List.append_eq_nil.1 h with ⟨-, h2⟩
  exact natDigitChars_ne_nil n h2

theorem parseDigitsNat_replicate_zero (k : ℕ) (ds : List Char) :
    parseDigitsNat (List.replicate k '0' ++ ds) = parseDigitsNat ds := by
  unfold parseDigitsNat
  rw [List.foldl_append]
  have : List.foldl (fun acc c => 10 * acc + (c.toNat - 48)) 0 (List.replicate k '0') = 0 := by
    induction k with
    | zero => rfl
    | succ k ihk => rw [List.replicate_succ, List.foldl_cons]; simpa using ihk
  rw [this]

theorem parseDigitsNat_natPad (w n : ℕ) : parseDigitsNat (natPad w n) = n := by
  unfold natPad
  rw [parseDigitsNat_replicate_zero, parseDigitsNat_natDigitChars]

theorem not_mem_of_not_digit {c : Char} {ds : List Char}
    (hall : ds.all isDigitChar = true) (hc : isDigitChar c = false) : c ∉ ds := by
  intro hm
  have := List.all_eq_true.1 hall c hm
  rw [hc] at this
  cases this

theorem pystrip_eq_self {s : List Char} (h : ∀ c ∈ s, pyIsSpace c = false) :
    pystrip s = s := by
  unfold pystrip
  have h1 : s.dropWhile pyIsSpace = s := by
    cases s with
    | nil => rfl
    | cons c cs => rw [List.dropWhile_cons, h c (List.mem_cons_self c cs)]; simp
  rw [h1]
  have h2 : s.reverse.dropWhile pyIsSpace = s.reverse := by
    cases hrev : s.reverse with
    | nil => rfl
    | cons c cs =>
      rw [List.dropWhile_cons, h c (by rw [← List.mem_reverse, hrev]; exact List.mem_cons_self c cs)]
      simp
  rw [h2, List.reverse_reverse]

/-- Python `int()` succeeds on any nonempty all-digit string and returns its
decimal value. -/
theorem pyInt_digits {ds : List Char} (hne : ds ≠ []) (hall : ds.all isDigitChar = true) :
    pyInt ds = some (parseDigitsNat ds : ℤ) := by
  have hstrip : pystrip ds = ds :=
    pystrip_eq_self (fun c hc => pyIsSpace_of_digit (List.all_eq_true.1 hall c hc))
  cases ds with
  | nil => exact absurd rfl hne
  | cons c cs =>
    have hcd : isDigitChar c = true := List.all_eq_true.1 hall c (List.mem_cons_self c cs)
    obtain ⟨hb1, hb2⟩ := isDigitChar_toNat hcd
    have e1 : c ≠ '-' := ne_of_toNat_ne (by rw [show ('-').toNat = 45 from rfl]; omega)
    have e2 : c ≠ '+' := ne_of_toNat_ne (by rw [show ('+').toNat = 43 from rfl]; omega)
    simp only [pyInt, hstrip, List.headD_cons, if_neg e1, if_neg e2]
    unfold parseDigits
    rw [if_neg (by simp), if_pos hall]
    rfl

theorem pyInt_natPad (w n : ℕ) : pyInt (natPad w n) = some (n : ℤ) := by
  rw [pyInt_digits (natPad_ne_nil w n) (natPad_all_digits w n), parseDigitsNat_natPad]

/-! ### Lemmas about `splitFirst` and `pysplit` -/

theorem splitFirst_single_not_mem {a : Char} : ∀ {s : List Char}, a ∉ s →
    splitFirst [a] s = none := by
  intro s
  induction s with
  | nil => intro _; rfl
  | cons c cs ih =>
    intro h
    have hac : ¬(a = c) := fun he => h (he ▸ List.mem_cons_self c cs)
    rw [splitFirst]
    rw [if_neg (by simp [List.isPrefixOf, List.isPrefixOf_nil_left]; exact hac)]
    rw [ih (fun hm => h (List.mem_cons_of_mem c hm))]

theorem splitFirst_single_append {a : Char} : ∀ {pre : List Char} (post : List Char), a ∉ pre →
    splitFirst [a] (pre ++ a :: post) = some (pre, post) := by
  intro pre
  induction pre with
  | nil =>
    intro post _
    rw [List.nil_append, splitFirst, if_pos (by simp [List.isPrefixOf])]
    rfl
  | cons c pre2 ih =>
    intro post h
    have hac : ¬(a = c) := fun he => h (he ▸ List.mem_cons_self c pre2)
    rw [List.cons_append, splitFirst]
    rw [if_neg (by simp [List.isPrefixOf]; exact hac)]
    rw [ih post (fun hm => h (List.mem_cons_of_mem c hm))]

theorem splitFirst_shortens {sep : List Char} (hsep : sep ≠ []) :
    ∀ {s before after : List Char}, splitFirst sep s = some (before, after) →
      after.length < s.length := by
  intro s
  induction s with
  | nil => intro before after h; cases h
  | cons c cs ih =>
    intro before after h
    rw [splitFirst] at h
    by_cases hpre : sep.isPrefixOf (c :: cs) = true
    · rw [if_pos hpre] at h
      simp only [Option.some.injEq, Prod.mk.injEq] at h
      obtain ⟨-, h2⟩ := h
      subst h2
      rw [List.length_drop]
      have : 1 ≤ sep.length := by
        cases sep with
        | nil => exact absurd rfl hsep
        | cons x xs => simp
      simp only [List.length_cons]
      omega
    · rw [if_neg hpre] at h
      cases hin : splitFirst sep cs with
      | none => rw [hin] at h; cases h
      | some p =>
        obtain ⟨b2, a2⟩ := p
        rw [hin] at h
        simp only [Option.some.injEq, Prod.mk.injEq] at h
        obtain ⟨-, h2⟩ := h
        subst h2
        have := ih hin
        simp only [List.length_cons]
        omega

theorem pysplitAux_fuel {sep : List Char} (hsep : sep ≠ []) :
    ∀ (f1 f2 : ℕ) (s : List Char), s.length < f1 → s.length < f2 →
      pysplitAux sep f1 s = pysplitAux sep f2 s := by
  intro f1
  induction f1 with
  | zero => intro f2 s h1; omega
  | succ g ih =>
    intro f2 s h1 h2
    cases f2 with
    | zero => omega
    | succ k =>
      rw [pysplitAux, pysplitAux]
      cases hsf : splitFirst sep s with
      | none => rfl
      | some p =>
        obtain ⟨b, a⟩ := p
        have hlen := splitFirst_shortens hsep hsf
        show b :: pysplitAux sep g a = b :: pysplitAux sep k a
        rw [ih k a (by omega) (by omega)]

theorem pysplit_cons_single {a : Char} {pre : List Char} (post : List Char) (h : a ∉ pre) :
    pysplit (pre ++ a :: post) [a] = pre :: pysplit post [a] := by
  unfold pysplit
  rw [if_neg (by simp), if_neg (by simp)]
  have hlen : (pre ++ a :: post).length = pre.length + post.length + 1 := by
    rw [List.length_append, List.length_cons]
    omega
  rw [hlen, pysplitAux, splitFirst_single_append post h]
  show pre :: pysplitAux [a] (pre.length + post.length + 1) post =
    pre :: pysplitAux [a] (post.length + 1) post
  rw [pysplitAux_fuel (by simp) (pre.length + post.length + 1) (post.length + 1) post
    (by omega) (by omega)]

theorem pysplit_single_not_mem {a : Char} {s : List Char} (h : a ∉ s) :
    pysplit s [a] = [s] := by
  unfold pysplit
  rw [if_neg (by simp), pysplitAux, splitFirst_single_not_mem h]

theorem not_mem_append_cons {x y : Char} {l1 l2 : List Char}
    (h1 : x ∉ l1) (h2 : x ≠ y) (h3 : x ∉ l2) : x ∉ l1 ++ y :: l2 := by
  intro hm
  rcases List.mem_append.1 hm with h | h
  · exact h1 h
  · rcases List.mem_cons.1 h with h | h
    · exact h2 h
    · exact h3 h

/-- Parsing any string of shape `A:B:C,D` whose four components
are nonempty digit runs — of any length — succeeds and returns
`A*3600 + B*60 + C + D/1000`. -/
theorem parse_srt_time_digits (a b c d4 : List Char)
    (ha : a ≠ []) (hb : b ≠ []) (hc : c ≠ []) (hd : d4 ≠ [])
    (ha2 : a.all isDigitChar = true) (hb2 : b.all isDigitChar = true)
    (hc2 : c.all isDigitChar = true) (hd2 : d4.all isDigitChar = true) :
    parse_srt_time (a ++ ':' :: (b ++ ':' :: (c ++ ',' :: d4))) =
      some ((parseDigitsNat a : ℚ) * 3600 + (parseDigitsNat b : ℚ) * 60 +
        (parseDigitsNat c : ℚ) + (parseDigitsNat d4 : ℚ) / 1000) := by
  have hca : (',') ∉ a := not_mem_of_not_digit ha2 (by decide)
  have hcb : (',') ∉ b := not_mem_of_not_digit hb2 (by decide)
  have hcc : (',') ∉ c := not_mem_of_not_digit hc2 (by decide)
  have hcd : (',') ∉ d4 := not_mem_of_not_digit hd2 (by decide)
  have hka : (':') ∉ a := not_mem_of_not_digit ha2 (by decide)
  have hkb : (':') ∉ b := not_mem_of_not_digit hb2 (by decide)
  have hkc : (':') ∉ c := not_mem_of_not_digit hc2 (by decide)
  have hpre : a ++ ':' :: (b ++ ':' :: (c ++ ',' :: d4)) =
      (a ++ ':' :: (b ++ ':' :: c)) ++ ',' :: d4 := by
    simp [List.append_assoc, List.cons_append]
  have hsplit1 : pysplit (a ++ ':' :: (b ++ ':' :: (c ++ ',' :: d4))) [','] =
      [a ++ ':' :: (b ++ ':' :: c), d4] := by
    rw [hpre,
      pysplit_cons_single d4
        (not_mem_append_cons hca (by decide) (not_mem_append_cons hcb (by decide) hcc)),
      pysplit_single_not_mem hcd]
  have hsplit2 : pysplit (a ++ ':' :: (b ++ ':' :: c)) [':'] = [a, b, c] := by
    rw [pysplit_cons_single (b ++ ':' :: c) hka, pysplit_cons_single c hkb,
      pysplit_single_not_mem hkc]
  simp only [parse_srt_time, hsplit1, hsplit2,
    pyInt_digits ha ha2, pyInt_digits hb hb2, pyInt_digits hc hc2, pyInt_digits hd hd2]
  push_cast
  ring_nf

theorem pymod_nonneg (a : ℚ) {b : ℚ} (hb : 0 < b) : 0 ≤ pymod a b := by
  have h1 : (⌊a / b⌋ : ℚ) ≤ a / b := Int.floor_le _
  have h2 : b * (⌊a / b⌋ : ℚ) ≤ b * (a / b) := mul_le_mul_of_nonneg_left h1 hb.le
  have h3 : b * (a / b) = a := by field_simp
  unfold pymod
  linarith

theorem pytrunc_of_nonneg {x : ℚ} (h : 0 ≤ x) : pytrunc x = ⌊x⌋ := by
  unfold pytrunc
  rw [if_neg (not_lt.2 h)]

/-! ### Structural lemmas about the partitioning loop -/

theorem le_foldl_maxEnd (l : List Subtitle) : ∀ init : ℚ,
    init ≤ l.foldl (fun a x => max a x.«end») init := by
  induction l with
  | nil => intro init; simp
  | cons s rest ih =>
    intro init
    exact le_trans (le_max_left init s.«end») (ih (max init s.«end»))

theorem mem_le_foldl_maxEnd {e : Subtitle} {l : List Subtitle} (he : e ∈ l) :
    ∀ init : ℚ, e.«end» ≤ l.foldl (fun a x => max a x.«end») init := by
  induction l with
  | nil => cases he
  | cons s rest ih =>
    intro init
    rcases List.mem_cons.1 he with h | h
    · subst h
      exact le_trans (le_max_right init e.«end») (le_foldl_maxEnd rest (max init e.«end»))
    · exact ih h (max init s.«end»)

/-- Every entry ends no later than the total duration computed at source
line 68. -/
theorem end_le_maxEndList {e : Subtitle} {l : List Subtitle} (he : e ∈ l) :
    e.«end» ≤ maxEndList l := by
  cases l with
  | nil => cases he
  | cons s rest =>
    rcases List.mem_cons.1 he with h | h
    · subst h; exact le_foldl_maxEnd rest e.«end»
    · exact mem_le_foldl_maxEnd h s.«end»

theorem mem_filter_inChunk {e : Subtitle} {subs : List Subtitle} {a b : ℚ} :
    e ∈ subs.filter (fun sub => decide (inChunk a b sub)) ↔ e ∈ subs ∧ inChunk a b e := by
  simp [List.mem_filter]

/-- Shape of every chunk emitted by the loop: its entry list is exactly the
source-order filter of the membership test over its planned range, it is
nonempty, its planned range has width `chunk_duration`, and its actual range
is the min/max of its entries. -/
theorem split_loop_chunks (subs : List Subtitle) (d o total : ℚ) :
    ∀ (fuel : ℕ) (cs : ℚ) (n : ℕ) (ws : List Chunk),
      split_loop subs d o total fuel cs n = some ws →
      ∀ c ∈ ws,
        c.subtitles =
            subs.filter (fun sub => decide (inChunk c.planned_start c.planned_end sub)) ∧
          c.subtitles ≠ [] ∧
          c.planned_end = c.planned_start + d ∧
          c.start_time = minStartList c.subtitles ∧
          c.end_time = maxEndList c.subtitles := by
  intro fuel
  induction fuel with
  | zero => intro cs n ws h; simp [split_loop] at h
  | succ fuel ih =>
    intro cs n ws h c hc
    rw [split_loop] at h
    by_cases hlt : cs < total
    · rw [if_pos hlt] at h
      set sel := subs.filter (fun sub => decide (inChunk cs (cs + d) sub)) with hsel
      by_cases hemp : sel = []
      · simp only [if_pos hemp] at h
        by_cases hbrk : total ≤ next_chunk_start cs d o
        · rw [if_pos hbrk] at h
          simp only [Option.some.injEq] at h
          subst h; cases hc
        · rw [if_neg hbrk, Option.map_eq_some'] at h
          obtain ⟨ws2, hws2, hcat⟩ := h
          subst hcat
          simp only [List.nil_append] at hc
          exact ih _ _ ws2 hws2 c hc
      · simp only [if_neg hemp] at h
        by_cases hbrk : total ≤ next_chunk_start cs d o
        · rw [if_pos hbrk] at h
          simp only [Option.some.injEq] at h
          subst h
          rcases List.mem_singleton.1 hc with rfl
          exact ⟨rfl, hemp, rfl, rfl, rfl⟩
        · rw [if_neg hbrk, Option.map_eq_some'] at h
          obtain ⟨ws2, hws2, hcat⟩ := h
          subst hcat
          rcases List.mem_append.1 hc with hin | hin
          · rcases List.mem_singleton.1 hin with rfl
            exact ⟨rfl, hemp, rfl, rfl, rfl⟩
          · exact ih _ _ ws2 hws2 c hin
    · rw [if_neg hlt] at h
      simp only [Option.some.injEq] at h
      subst h; cases hc

/-- Sequence numbers of emitted chunks are consecutive, starting at the
running `chunk_number` (source lines 93 and 101): an iteration that emits no
chunk does not advance the counter. -/
theorem split_loop_numbers (subs : List Subtitle) (d o total : ℚ) :
    ∀ (fuel : ℕ) (cs : ℚ) (n : ℕ) (ws : List Chunk),
      split_loop subs d o total fuel cs n = some ws →
      ∀ (i : ℕ) (c : Chunk), ws[i]? = some c → c.number = n + i := by
  intro fuel
  induction fuel with
  | zero => intro cs n ws h; simp [split_loop] at h
  | succ fuel ih =>
    intro cs n ws h i c hgc
    rw [split_loop] at h
    by_cases hlt : cs < total
    · rw [if_pos hlt] at h
      set sel := subs.filter (fun sub => decide (inChunk cs (cs + d) sub)) with hsel
      by_cases hemp : sel = []
      · simp only [if_pos hemp] at h
        by_cases hbrk : total ≤ next_chunk_start cs d o
        · rw [if_pos hbrk] at h
          simp only [Option.some.injEq] at h
          subst h; simp at hgc
        · rw [if_neg hbrk, Option.map_eq_some'] at h
          obtain ⟨ws2, hws2, hcat⟩ := h
          subst hcat
          simp only [List.length_nil, Nat.add_zero] at hws2
          simp only [List.nil_append] at hgc
          exact ih _ _ ws2 hws2 i c hgc
      · simp only [if_neg hemp] at h
        by_cases hbrk : total ≤ next_chunk_start cs d o
        · rw [if_pos hbrk] at h
          simp only [Option.some.injEq] at h
          subst h
          cases i with
          | zero => simp only [List.getElem?_cons_zero, Option.some.injEq] at hgc; subst hgc; rfl
          | succ j => simp at hgc
        · rw [if_neg hbrk, Option.map_eq_some'] at h
          obtain ⟨ws2, hws2, hcat⟩ := h
          subst hcat
          simp only [List.length_singleton] at hws2
          rw [List.singleton_append] at hgc
          cases i with
          | zero =>
            simp only [List.getElem?_cons_zero, Option.some.injEq] at hgc
            subst hgc; rfl
          | succ j =>
            rw [List.getElem?_cons_succ] at hgc
            have := ih _ _ ws2 hws2 j c hgc
            omega
    · rw [if_neg hlt] at h
      simp only [Option.some.injEq] at h
      subst h; simp at hgc

/-- Coverage: if an entry starts at or after the current `chunk_start` and
before `total_duration`, some emitted chunk contains it. -/
theorem split_loop_covers (subs : List Subtitle) (d o total : ℚ) (ho : 0 ≤ o) :
    ∀ (fuel : ℕ) (cs : ℚ) (n : ℕ) (ws : List Chunk),
      split_loop subs d o total fuel cs n = some ws →
      ∀ e ∈ subs, cs ≤ e.start → e.start < total →
        ∃ c ∈ ws, e ∈ c.subtitles := by
  intro fuel
  induction fuel with
  | zero => intro cs n ws h; simp [split_loop] at h
  | succ fuel ih =>
    intro cs n ws h e hemem hcs hetot
    have hlt : cs < total := lt_of_le_of_lt hcs hetot
    rw [split_loop, if_pos hlt] at h
    set sel := subs.filter (fun sub => decide (inChunk cs (cs + d) sub)) with hsel
    by_cases hin : e.start < cs + d
    · have hesel : e ∈ sel := mem_filter_inChunk.2 ⟨hemem, Or.inl ⟨hcs, hin⟩⟩
      have hemp : ¬(sel = []) := fun hn => by rw [hn] at hesel; cases hesel
      simp only [if_neg hemp] at h
      by_cases hbrk : total ≤ next_chunk_start cs d o
      · rw [if_pos hbrk] at h
        simp only [Option.some.injEq] at h
        subst h
        exact ⟨_, List.mem_singleton_self _, hesel⟩
      · rw [if_neg hbrk, Option.map_eq_some'] at h
        obtain ⟨ws2, hws2, hcat⟩ := h
        subst hcat
        exact ⟨_, List.mem_append_left _ (List.mem_singleton_self _), hesel⟩
    · have hnexte : next_chunk_start cs d o ≤ e.start := by
        unfold next_chunk_start
        push_neg at hin
        linarith
      have hbrk : ¬(total ≤ next_chunk_start cs d o) := fun hn =>
        absurd hetot (not_lt.2 (le_trans hn hnexte))
      by_cases hemp : sel = []
      · simp only [if_pos hemp] at h
        rw [if_neg hbrk, Option.map_eq_some'] at h
        obtain ⟨ws2, hws2, hcat⟩ := h
        subst hcat
        obtain ⟨c, hc, hec⟩ := ih _ _ ws2 hws2 e hemem hnexte hetot
        exact ⟨c, List.mem_append_right _ hc, hec⟩
      · simp only [if_neg hemp] at h
        rw [if_neg hbrk, Option.map_eq_some'] at h
        obtain ⟨ws2, hws2, hcat⟩ := h
        subst hcat
        obtain ⟨c, hc, hec⟩ := ih _ _ ws2 hws2 e hemem hnexte hetot
        exact ⟨c, List.mem_append_right _ hc, hec⟩

/-- Termination: with `overlap < chunk_duration` the loop finishes once the
fuel exceeds the number of remaining iterations. -/
theorem split_loop_isSome (subs : List Subtitle) (d o total : ℚ) (hdo : o < d) :
    ∀ (fuel : ℕ) (cs : ℚ) (n : ℕ),
      (⌈(total - cs) / (d - o)⌉).toNat < fuel →
      (split_loop subs d o total fuel cs n).isSome = true := by
  intro fuel
  induction fuel with
  | zero => intro cs n hf; omega
  | succ fuel ih =>
    intro cs n hf
    rw [split_loop]
    by_cases hlt : cs < total
    · rw [if_pos hlt]
      by_cases hbrk : total ≤ next_chunk_start cs d o
      · rw [if_pos hbrk]; rfl
      · rw [if_neg hbrk]
        rw [Option.isSome_map']
        have hstep : (0 : ℚ) < d - o := sub_pos.2 hdo
        have hlt2 : next_chunk_start cs d o < total := not_le.1 hbrk
        have key : (total - cs) / (d - o) = (total - next_chunk_start cs d o) / (d - o) + 1 := by
          rw [div_add' _ _ _ (ne_of_gt hstep)]
          unfold next_chunk_start
          ring_nf
        have hpos : (0 : ℚ) < (total - next_chunk_start cs d o) / (d - o) :=
          div_pos (by linarith) hstep
        have hceil : ⌈(total - cs) / (d - o)⌉ = ⌈(total - next_chunk_start cs d o) / (d - o)⌉ + 1 := by
          rw [key, Int.ceil_add_one]
        have hone : 0 < ⌈(total - next_chunk_start cs d o) / (d - o)⌉ := Int.ceil_pos.2 hpos
        exact ih _ _ (by omega)
    · rw [if_neg hlt]; rfl

/-- Divergence: with `chunk_duration <= overlap` and the loop entered at all,
no amount of fuel finishes it — `chunk_start` never advances past its old
value, so the Python loop runs forever. -/
theorem split_loop_none (subs : List Subtitle) (d o total : ℚ) (hdo : d ≤ o) :
    ∀ (fuel : ℕ) (cs : ℚ) (n : ℕ), cs < total →
      split_loop subs d o total fuel cs n = none := by
  intro fuel
  induction fuel with
  | zero => intro cs n hlt; simp [split_loop]
  | succ fuel ih =>
    intro cs n hlt
    rw [split_loop, if_pos hlt]
    have hnext : next_chunk_start cs d o ≤ cs := by unfold next_chunk_start; linarith
    have hbrk : ¬(total ≤ next_chunk_start cs d o) := fun hn =>
      absurd hlt (not_lt.2 (le_trans hn hnext))
    rw [if_neg hbrk, ih _ _ (lt_of_le_of_lt hnext hlt)]
    rfl

/-- Adjacency: when a chunk is emitted and an entry starts inside that
chunk's trailing overlap region `[planned_end - overlap, planned_end)`
before the end of the timeline, the very next loop iteration also selects
the entry, so the next emitted chunk exists and contains it. -/
theorem split_loop_adjacent (subs : List Subtitle) (d o total : ℚ) (hdo : o < d) :
    ∀ (fuel : ℕ) (cs : ℚ) (n : ℕ) (ws : List Chunk),
      split_loop subs d o total fuel cs n = some ws →
      ∀ e ∈ subs, e.start < total →
      ∀ (k : ℕ) (c : Chunk), ws[k]? = some c →
        c.planned_end - o ≤ e.start → e.start < c.planned_end →
        ∃ c2 : Chunk, ws[k + 1]? = some c2 ∧ e ∈ c2.subtitles := by
  intro fuel
  induction fuel with
  | zero => intro cs n ws h; simp [split_loop] at h
  | succ fuel ih =>
    intro cs n ws h e hemem hetot k c hgc hov1 hov2
    rw [split_loop] at h
    by_cases hlt : cs < total
    · rw [if_pos hlt] at h
      set sel := subs.filter (fun sub => decide (inChunk cs (cs + d) sub)) with hsel
      by_cases hemp : sel = []
      · simp only [if_pos hemp] at h
        by_cases hbrk : total ≤ next_chunk_start cs d o
        · rw [if_pos hbrk] at h
          simp only [Option.some.injEq] at h
          subst h; simp at hgc
        · rw [if_neg hbrk, Option.map_eq_some'] at h
          obtain ⟨ws2, hws2, hcat⟩ := h
          subst hcat
          simp only [List.nil_append] at hgc ⊢
          exact ih _ _ ws2 hws2 e hemem hetot k c hgc hov1 hov2
      · simp only [if_neg hemp] at h
        by_cases hbrk : total ≤ next_chunk_start cs d o
        · rw [if_pos hbrk] at h
          simp only [Option.some.injEq] at h
          subst h
          cases k with
          | zero =>
            simp only [List.getElem?_cons_zero, Option.some.injEq] at hgc
            subst hgc
            exfalso
            have hov1x : cs + d - o ≤ e.start := hov1
            have : total ≤ e.start := by
              refine le_trans hbrk ?_
              unfold next_chunk_start
              linarith
            exact absurd hetot (not_lt.2 this)
          | succ j => simp at hgc
        · rw [if_neg hbrk, Option.map_eq_some'] at h
          obtain ⟨ws2, hws2, hcat⟩ := h
          subst hcat
          rw [List.singleton_append] at hgc ⊢
          cases k with
          | zero =>
            simp only [List.getElem?_cons_zero, Option.some.injEq] at hgc
            subst hgc
            have hov1x : cs + d - o ≤ e.start := hov1
            have hov2x : e.start < cs + d := hov2
            -- the next iteration starts at `cs + d - o` and selects `e`
            rw [List.getElem?_cons_succ]
            have hlt2 : next_chunk_start cs d o < total := not_le.1 hbrk
            cases fuel with
            | zero => simp [split_loop] at hws2
            | succ fl =>
              rw [split_loop, if_pos hlt2] at hws2
              have hesel2 : e ∈ subs.filter (fun sub =>
                  decide (inChunk (next_chunk_start cs d o)
                    (next_chunk_start cs d o + d) sub)) := by
                refine mem_filter_inChunk.2 ⟨hemem, Or.inl ⟨?_, ?_⟩⟩
                · unfold next_chunk_start; linarith
                · unfold next_chunk_start; linarith
              have hemp2 : ¬(subs.filter (fun sub =>
                  decide (inChunk (next_chunk_start cs d o)
                    (next_chunk_start cs d o + d) sub)) = []) := fun hn => by
                rw [hn] at hesel2; cases hesel2
              simp only [if_neg hemp2] at hws2
              by_cases hbrk2 : total ≤ next_chunk_start (next_chunk_start cs d o) d o
              · rw [if_pos hbrk2] at hws2
                simp only [Option.some.injEq] at hws2
                subst hws2
                simp only [List.getElem?_cons_zero]
                exact ⟨_, rfl, hesel2⟩
              · rw [if_neg hbrk2, Option.map_eq_some'] at hws2
                obtain ⟨ws3, hws3, hcat2⟩ := hws2
                subst hcat2
                rw [List.singleton_append]
                simp only [List.getElem?_cons_zero]
                exact ⟨_, rfl, hesel2⟩
          | succ j =>
            rw [List.getElem?_cons_succ] at hgc
            obtain ⟨c2, hc2, hec2⟩ := ih _ _ ws2 hws2 e hemem hetot j c hgc hov1 hov2
            exact ⟨c2, by rw [List.getElem?_cons_succ]; exact hc2, hec2⟩
    · rw [if_neg hlt] at h
      simp only [Option.some.injEq] at h
      subst h; simp at hgc

/-- For entries with `start < end` the membership test of source lines 83-84
is exactly overlap of `[start, end)` with the planned range. -/
theorem inChunk_iff_overlap {s : Subtitle} {ps pe : ℚ} (hse : s.start < s.«end»)
    (hpp : ps < pe) :
    inChunk ps pe s ↔ intervalsOverlap s.start s.«end» ps pe := by
  unfold inChunk intervalsOverlap
  rw [max_lt_iff, lt_min_iff, lt_min_iff]
  constructor
  · rintro (⟨h1, h2⟩ | ⟨h1, h2⟩)
    · exact ⟨⟨hse, h2⟩, by linarith, hpp⟩
    · exact ⟨⟨hse, h2⟩, h1, hpp⟩
  · rintro ⟨⟨_, h2⟩, h3, _⟩
    exact Or.inr ⟨h3, h2⟩

/-- With `0 ≤ overlap < chunk_duration` the fuel chosen by `partition`
suffices, so the partitioning loop terminates with a result. -/
theorem partition_isSome (subs : List Subtitle) (d o : ℚ) (hdo : o < d) :
    (partition subs d o).isSome = true := by
  unfold partition
  by_cases hne : subs = []
  · rw [if_pos hne]; rfl
  · rw [if_neg hne]
    apply split_loop_isSome subs d o (maxEndList subs) hdo
    unfold fuelFor
    rw [sub_zero]
    have hcf := Int.ceil_le_floor_add_one ((maxEndList subs) / (d - o))
    omega

theorem partition_eq_some (subs : List Subtitle) (d o : ℚ) (hdo : o < d) :
    ∃ ws, partition subs d o = some ws := by
  have h := partition_isSome subs d o hdo
  exact Option.isSome_iff_exists.1 h

/-! ### The claims -/

/-- C1, counterexample to the claim as stated: the single-entry list with the
(degenerate but parseable) entry `[0, 0)` is non-empty, and
`chunk_duration = 30 > overlap = 5 > 0`, yet `split_srt_by_time` emits no
window at all: `total_duration = 0`, so the loop body never runs. -/
theorem claim_C1_counterexample :
    split_srt_by_time [⟨1, 0, 0, []⟩] 30 5 = some [] ∧
      ([⟨1, 0, 0, []⟩] : List Subtitle) ≠ [] ∧ (0 : ℚ) < 5 ∧ (5 : ℚ) < 30 := by
  decide

/-- C1, amended: for a non-empty entry list in which every entry satisfies
`0 ≤ start < end` (so that the timeline is non-degenerate) and
`chunk_duration > overlap > 0`, `split_srt_by_time` terminates with at least
one window, every entry lands in some window, and membership in the union of
the windows coincides with reachability by some window's planned range. -/
theorem claim_C1 (subs : List Subtitle) (dm om : ℚ) (hne : subs ≠ [])
    (hval : ∀ e ∈ subs, 0 ≤ e.start ∧ e.start < e.«end»)
    (hom : 0 < om) (hdm : om < dm) :
    ∃ ws, split_srt_by_time subs dm om = some ws ∧ ws ≠ [] ∧
      (∀ e ∈ subs, ∃ c ∈ ws, e ∈ c.subtitles) ∧
      (∀ e ∈ subs, (∃ c ∈ ws, e ∈ c.subtitles) ↔
        ∃ c ∈ ws, inChunk c.planned_start c.planned_end e) := by
  have hdo : om * 60 < dm * 60 := by linarith
  have ho : (0 : ℚ) ≤ om * 60 := by linarith
  obtain ⟨ws, hws⟩ := partition_eq_some subs (dm * 60) (om * 60) hdo
  have hloop : split_loop subs (dm * 60) (om * 60) (maxEndList subs)
      (fuelFor (maxEndList subs) (dm * 60 - om * 60)) 0 1 = some ws := by
    unfold partition at hws
    rwa [if_neg hne] at hws
  have hcover : ∀ e ∈ subs, ∃ c ∈ ws, e ∈ c.subtitles := by
    intro e he
    obtain ⟨h0, hlt⟩ := hval e he
    have htot : e.start < maxEndList subs := lt_of_lt_of_le hlt (end_le_maxEndList he)
    exact split_loop_covers subs (dm * 60) (om * 60) (maxEndList subs) ho _ _ _ ws hloop e he h0 htot
  refine ⟨ws, hws, ?_, hcover, ?_⟩
  · obtain ⟨e, he⟩ := List.exists_mem_of_ne_nil subs hne
    obtain ⟨c, hc, _⟩ := hcover e he
    exact List.ne_nil_of_mem hc
  · intro e he
    constructor
    · rintro ⟨c, hc, hec⟩
      obtain ⟨hfil, -, -, -, -⟩ :=
        split_loop_chunks subs (dm * 60) (om * 60) (maxEndList subs) _ _ _ ws hloop c hc
      rw [hfil] at hec
      exact ⟨c, hc, (mem_filter_inChunk.1 hec).2⟩
    · rintro ⟨c, hc, hec⟩
      obtain ⟨hfil, -, -, -, -⟩ :=
        split_loop_chunks subs (dm * 60) (om * 60) (maxEndList subs) _ _ _ ws hloop c hc
      exact ⟨c, hc, hfil ▸ mem_filter_inChunk.2 ⟨he, hec⟩⟩

/-- C1 witness: a well-formed one-entry input meets the amended hypotheses. -/
theorem claim_C1_witness :
    ∃ ws, split_srt_by_time [⟨1, 0, 5, []⟩] 30 5 = some ws ∧ ws ≠ [] ∧
      (∀ e ∈ [(⟨1, 0, 5, []⟩ : Subtitle)], ∃ c ∈ ws, e ∈ c.subtitles) ∧
      (∀ e ∈ [(⟨1, 0, 5, []⟩ : Subtitle)], (∃ c ∈ ws, e ∈ c.subtitles) ↔
        ∃ c ∈ ws, inChunk c.planned_start c.planned_end e) :=
  claim_C1 [⟨1, 0, 5, []⟩] 30 5 (by decide) (by decide) (by decide) (by decide)

/-- C2: partitioning the three entries `[0,5)`, `[10,15)`, `[40,45)` (seconds)
with `chunk_duration = 30` and `overlap = 5` seconds yields exactly two
windows: number 1 with planned range `[0, 30)`, entries 1 and 2,
actual range `[0, 15]`; number 2 with planned range `[25, 55)`, entry 3,
actual range `[40, 45]`; the loop stops once `next_chunk_start = 50 ≥ 45`. -/
theorem claim_C2 :
    partition [⟨1, 0, 5, []⟩, ⟨2, 10, 15, []⟩, ⟨3, 40, 45, []⟩] 30 5 =
      some [⟨1, 0, 15, [⟨1, 0, 5, []⟩, ⟨2, 10, 15, []⟩], 0, 30⟩,
            ⟨2, 40, 45, [⟨3, 40, 45, []⟩], 25, 55⟩] := by
  decide

/-- C3, counterexample to the "equivalently" reading as stated: the
degenerate entry `[5, 5)` (empty time interval) is selected into the window
with planned range `[0, 30)` by the source's test (its `start` lies in the
planned range), yet its interval `[5, 5)` overlaps nothing — so membership
is not equivalent to interval overlap for arbitrary entries. -/
theorem claim_C3_counterexample :
    partition [⟨1, 5, 5, []⟩] 30 5 = some [⟨1, 5, 5, [⟨1, 5, 5, []⟩], 0, 30⟩] ∧
      (⟨1, 5, 5, []⟩ : Subtitle) ∈ (⟨1, 5, 5, [⟨1, 5, 5, []⟩], 0, 30⟩ : Chunk).subtitles ∧
      ¬intervalsOverlap 5 5 0 30 := by
  decide

/-- C3, amended: every emitted window's entry list is exactly the source-order
filter of the disjunctive membership test over its planned range (hence no
duplicates when the input has none), and for entries with a non-degenerate
interval `start < end` membership is equivalent to overlap with the planned
range. -/
theorem claim_C3 (subs : List Subtitle) (d o : ℚ) (ws : List Chunk)
    (hws : partition subs d o = some ws) :
    ∀ c ∈ ws,
      c.subtitles = subs.filter (fun sub => decide (inChunk c.planned_start c.planned_end sub)) ∧
      (subs.Nodup → c.subtitles.Nodup) ∧
      (0 < d → ∀ e ∈ subs, e.start < e.«end» →
        (e ∈ c.subtitles ↔ intervalsOverlap e.start e.«end» c.planned_start c.planned_end)) := by
  intro c hc
  unfold partition at hws
  by_cases hne : subs = []
  · rw [if_pos hne] at hws
    simp only [Option.some.injEq] at hws
    subst hws; cases hc
  · rw [if_neg hne] at hws
    obtain ⟨hfil, hnonempty, hpe, -, -⟩ :=
      split_loop_chunks subs d o (maxEndList subs) _ _ _ ws hws c hc
    refine ⟨hfil, ?_, ?_⟩
    · intro hnd
      rw [hfil]
      exact hnd.filter _
    · intro hd e he hlt
      have hpp : c.planned_start < c.planned_end := by rw [hpe]; linarith
      rw [hfil, mem_filter_inChunk]
      rw [inChunk_iff_overlap hlt hpp]
      constructor
      · rintro ⟨-, h⟩; exact h
      · intro h; exact ⟨he, h⟩

/-- C3 witness: the amended statement applied to the one-entry run. -/
theorem claim_C3_witness :
    (⟨1, 0, 5, [⟨1, 0, 5, []⟩], 0, 30⟩ : Chunk).subtitles =
        [(⟨1, 0, 5, []⟩ : Subtitle)].filter (fun sub => decide (inChunk 0 30 sub)) ∧
      ((⟨1, 0, 5, []⟩ : Subtitle) ∈ (⟨1, 0, 5, [⟨1, 0, 5, []⟩], 0, 30⟩ : Chunk).subtitles ↔
        intervalsOverlap 0 5 0 30) := by
  obtain ⟨h1, h2, h3⟩ :=
    claim_C3 [⟨1, 0, 5, []⟩] 30 5 [⟨1, 0, 5, [⟨1, 0, 5, []⟩], 0, 30⟩] (by decide)
      ⟨1, 0, 5, [⟨1, 0, 5, []⟩], 0, 30⟩ (by simp)
  exact ⟨h1, h3 (by norm_num) ⟨1, 0, 5, []⟩ (by simp) (by norm_num)⟩

/-- C4: with `chunk_duration > overlap ≥ 0` (minutes, as the source's
signature takes them) `split_srt_by_time` terminates with a result; each
iteration moves `chunk_start` forward by `chunk_duration - overlap > 0`;
and when `overlap ≥ chunk_duration` the successor start does not advance
past `chunk_start` and — once the loop is entered at all, i.e. the total
duration is positive — no amount of fuel finishes the loop (the Python
loop runs forever). -/
theorem claim_C4 (subs subs2 : List Subtitle) (dm om cs d o : ℚ)
    (hom : 0 ≤ om) (hdm : om < dm) :
    (split_srt_by_time subs dm om).isSome = true ∧
      next_chunk_start cs d o = cs + (d - o) ∧
      (o < d → cs < next_chunk_start cs d o) ∧
      (d ≤ o → next_chunk_start cs d o ≤ cs) ∧
      (d ≤ o → 0 < maxEndList subs2 →
        ∀ (fuel n : ℕ), split_loop subs2 d o (maxEndList subs2) fuel 0 n = none) := by
  refine ⟨?_, ?_, ?_, ?_, ?_⟩
  · unfold split_srt_by_time
    exact partition_isSome subs (dm * 60) (om * 60) (by linarith)
  · unfold next_chunk_start; ring
  · intro h; unfold next_chunk_start; linarith
  · intro h; unfold next_chunk_start; linarith
  · intro hdo htot fuel n
    exact split_loop_none subs2 d o (maxEndList subs2) hdo fuel 0 n htot

/-- C4 witness: a concrete terminating run, and a concrete non-advancing and
non-terminating configuration (`chunk_duration = overlap = 10` seconds). -/
theorem claim_C4_witness :
    (split_srt_by_time [⟨1, 0, 5, []⟩] 30 5).isSome = true ∧
      next_chunk_start 0 10 10 ≤ 0 ∧
      split_loop [⟨1, 0, 5, []⟩] 10 10 (maxEndList [⟨1, 0, 5, []⟩]) 7 0 1 = none := by
  obtain ⟨h1, h2, h3, h4, h5⟩ :=
    claim_C4 [⟨1, 0, 5, []⟩] [⟨1, 0, 5, []⟩] 30 5 0 10 10 (by decide) (by decide)
  exact ⟨h1, h4 le_rfl, h5 le_rfl (by decide) 7 1⟩

/-- C5, counterexample to the claim as stated: the entry `[0, 40)` appears in
both emitted windows (it is selected into window 2, planned `[25, 55)`, by
the second disjunct, because it is still running at time 25), yet it does
not start in window 1's overlap region `[25, 30)` — so "appears in both" is
not equivalent to "starts in the overlap region". -/
theorem claim_C5_counterexample :
    partition [⟨1, 0, 40, []⟩] 30 5 =
        some [⟨1, 0, 40, [⟨1, 0, 40, []⟩], 0, 30⟩, ⟨2, 0, 40, [⟨1, 0, 40, []⟩], 25, 55⟩] ∧
      (⟨1, 0, 40, []⟩ : Subtitle) ∈ (⟨1, 0, 40, [⟨1, 0, 40, []⟩], 0, 30⟩ : Chunk).subtitles ∧
      (⟨1, 0, 40, []⟩ : Subtitle) ∈ (⟨2, 0, 40, [⟨1, 0, 40, []⟩], 25, 55⟩ : Chunk).subtitles ∧
      ¬((⟨1, 0, 40, [⟨1, 0, 40, []⟩], 0, 30⟩ : Chunk).planned_end - 5 ≤
          (⟨1, 0, 40, []⟩ : Subtitle).start) := by
  decide

/-- C5, amended to the direction that holds (the spec's own sentence): if an
entry with a non-degenerate interval starts in the overlap region
`[planned_end - overlap, planned_end)` of emitted window `k`, then the next
emitted window `k+1` exists and the entry appears in both windows. -/
theorem claim_C5 (subs : List Subtitle) (d o : ℚ) (ws : List Chunk)
    (ho : 0 ≤ o) (hdo : o < d) (hws : partition subs d o = some ws)
    (e : Subtitle) (he : e ∈ subs) (hlt : e.start < e.«end»)
    (k : ℕ) (c : Chunk) (hk : ws[k]? = some c)
    (h1 : c.planned_end - o ≤ e.start) (h2 : e.start < c.planned_end) :
    e ∈ c.subtitles ∧ ∃ c2, ws[k + 1]? = some c2 ∧ e ∈ c2.subtitles := by
  have hne : subs ≠ [] := List.ne_nil_of_mem he
  unfold partition at hws
  rw [if_neg hne] at hws
  have hetot : e.start < maxEndList subs := lt_of_lt_of_le hlt (end_le_maxEndList he)
  have hmem : c ∈ ws := List.getElem?_mem hk
  obtain ⟨hfil, -, hpe, -, -⟩ :=
    split_loop_chunks subs d o (maxEndList subs) _ _ _ ws hws c hmem
  constructor
  · rw [hfil]
    refine mem_filter_inChunk.2 ⟨he, Or.inl ⟨?_, h2⟩⟩
    rw [hpe] at h1
    linarith
  · exact split_loop_adjacent subs d o (maxEndList subs) hdo _ _ _ ws hws e he hetot
      k c hk h1 h2

/-- C5 witness: entry `[26, 28)` starts in the overlap region `[25, 30)` of
window 1 and indeed appears in windows 1 and 2. -/
theorem claim_C5_witness :
    (⟨1, 26, 28, []⟩ : Subtitle) ∈ (⟨1, 26, 28, [⟨1, 26, 28, []⟩], 0, 30⟩ : Chunk).subtitles ∧
      ([⟨1, 26, 28, [⟨1, 26, 28, []⟩], 0, 30⟩,
        ⟨2, 26, 28, [⟨1, 26, 28, []⟩], 25, 55⟩] : List Chunk)[1]? =
          some ⟨2, 26, 28, [⟨1, 26, 28, []⟩], 25, 55⟩ ∧
      (⟨1, 26, 28, []⟩ : Subtitle) ∈ (⟨2, 26, 28, [⟨1, 26, 28, []⟩], 25, 55⟩ : Chunk).subtitles := by
  obtain ⟨ha, c2, hb, hc⟩ :=
    claim_C5 [⟨1, 26, 28, []⟩] 30 5
      [⟨1, 26, 28, [⟨1, 26, 28, []⟩], 0, 30⟩, ⟨2, 26, 28, [⟨1, 26, 28, []⟩], 25, 55⟩]
      (by decide) (by decide) (by decide)
      ⟨1, 26, 28, []⟩ (by simp) (by decide)
      0 ⟨1, 26, 28, [⟨1, 26, 28, []⟩], 0, 30⟩ (by decide) (by decide) (by decide)
  have hb2 : c2 = ⟨2, 26, 28, [⟨1, 26, 28, []⟩], 25, 55⟩ := by
    have : ([⟨1, 26, 28, [⟨1, 26, 28, []⟩], 0, 30⟩,
        ⟨2, 26, 28, [⟨1, 26, 28, []⟩], 25, 55⟩] : List Chunk)[(0 : ℕ) + 1]? =
          some ⟨2, 26, 28, [⟨1, 26, 28, []⟩], 25, 55⟩ := by decide
    rw [this] at hb
    exact (Option.some.injEq _ _ ▸ hb).symm
  subst hb2
  exact ⟨ha, by decide, hc⟩

/-- C9: the empty entry list yields the empty chunk sequence; every emitted
chunk of any run carries sequence number `index + 1` (numbers are
consecutive from 1, and empty selections consume no number), a nonempty
entry list, and actual bounds equal to the min start and max end of its
entries. -/
theorem claim_C9 (subs : List Subtitle) (dm om d o : ℚ) (ws : List Chunk)
    (hws : partition subs d o = some ws) :
    split_srt_by_time [] dm om = some [] ∧
      ∀ (i : ℕ) (c : Chunk), ws[i]? = some c →
        c.number = i + 1 ∧ c.subtitles ≠ [] ∧
        c.start_time = minStartList c.subtitles ∧ c.end_time = maxEndList c.subtitles := by
  constructor
  · rfl
  · intro i c hic
    unfold partition at hws
    by_cases hne : subs = []
    · rw [if_pos hne] at hws
      simp only [Option.some.injEq] at hws
      subst hws; simp at hic
    · rw [if_neg hne] at hws
      have hnum := split_loop_numbers subs d o (maxEndList subs) _ _ _ ws hws i c hic
      obtain ⟨-, hnonempty, -, hmin, hmax⟩ :=
        split_loop_chunks subs d o (maxEndList subs) _ _ _ ws hws c (List.getElem?_mem hic)
      exact ⟨by omega, hnonempty, hmin, hmax⟩

/-- C9 witness: the scenario run of C2, checked at window index 1. -/
theorem claim_C9_witness :
    split_srt_by_time [] 30 5 = some [] ∧
      ((⟨2, 40, 45, [⟨3, 40, 45, []⟩], 25, 55⟩ : Chunk).number = 1 + 1 ∧
        (⟨2, 40, 45, [⟨3, 40, 45, []⟩], 25, 55⟩ : Chunk).subtitles ≠ [] ∧
        (⟨2, 40, 45, [⟨3, 40, 45, []⟩], 25, 55⟩ : Chunk).start_time =
          minStartList (⟨2, 40, 45, [⟨3, 40, 45, []⟩], 25, 55⟩ : Chunk).subtitles ∧
        (⟨2, 40, 45, [⟨3, 40, 45, []⟩], 25, 55⟩ : Chunk).end_time =
          maxEndList (⟨2, 40, 45, [⟨3, 40, 45, []⟩], 25, 55⟩ : Chunk).subtitles) := by
  obtain ⟨h0, h⟩ :=
    claim_C9 [⟨1, 0, 5, []⟩, ⟨2, 10, 15, []⟩, ⟨3, 40, 45, []⟩] 30 5 30 5
      [⟨1, 0, 15, [⟨1, 0, 5, []⟩, ⟨2, 10, 15, []⟩], 0, 30⟩,
       ⟨2, 40, 45, [⟨3, 40, 45, []⟩], 25, 55⟩] (by decide)
  exact ⟨h0, h 1 ⟨2, 40, 45, [⟨3, 40, 45, []⟩], 25, 55⟩ (by decide)⟩

/-- C6: for every nonnegative time value, `seconds_to_srt_time` followed by
`parse_srt_time` returns exactly the value truncated (floored, not rounded)
to whole milliseconds: `⌊1000·t⌋/1000`, which is within `1/1000` below the
original; the decoder computes `h*3600 + m*60 + s + ms/1000` by definition
(`parse_srt_time`). -/
theorem claim_C6 (seconds : ℚ) (hq : 0 ≤ seconds) :
    parse_srt_time (seconds_to_srt_time seconds) = some ((⌊1000 * seconds⌋ : ℚ) / 1000) ∧
      (⌊1000 * seconds⌋ : ℚ) / 1000 ≤ seconds ∧
      seconds - 1 / 1000 < (⌊1000 * seconds⌋ : ℚ) / 1000 := by
  have hmod3600 := pymod_nonneg seconds (show (0 : ℚ) < 3600 by norm_num)
  have hmod60 := pymod_nonneg seconds (show (0 : ℚ) < 60 by norm_num)
  have hmod1 := pymod_nonneg seconds (show (0 : ℚ) < 1 by norm_num)
  have hh : 0 ≤ ⌊seconds / 3600⌋ := Int.floor_nonneg.2 (div_nonneg hq (by norm_num))
  have hm : 0 ≤ ⌊pymod seconds 3600 / 60⌋ :=
    Int.floor_nonneg.2 (div_nonneg hmod3600 (by norm_num))
  have hs : 0 ≤ ⌊pymod seconds 60⌋ := Int.floor_nonneg.2 hmod60
  have hms : 0 ≤ ⌊pymod seconds 1 * 1000⌋ :=
    Int.floor_nonneg.2 (mul_nonneg hmod1 (by norm_num))
  have e1 : pytrunc (pyfloordiv seconds 3600) = ⌊seconds / 3600⌋ := by
    unfold pyfloordiv
    rw [pytrunc_of_nonneg (by exact_mod_cast hh), Int.floor_intCast]
  have e2 : pytrunc (pyfloordiv (pymod seconds 3600) 60) = ⌊pymod seconds 3600 / 60⌋ := by
    unfold pyfloordiv
    rw [pytrunc_of_nonneg (by exact_mod_cast hm), Int.floor_intCast]
  have e3 : pytrunc (pymod seconds 60) = ⌊pymod seconds 60⌋ := pytrunc_of_nonneg hmod60
  have e4 : pytrunc (pymod seconds 1 * 1000) = ⌊pymod seconds 1 * 1000⌋ :=
    pytrunc_of_nonneg (mul_nonneg hmod1 (by norm_num))
  have hrepr : seconds_to_srt_time seconds =
      natPad 2 (⌊seconds / 3600⌋).natAbs ++ ':' ::
        (natPad 2 (⌊pymod seconds 3600 / 60⌋).natAbs ++ ':' ::
          (natPad 2 (⌊pymod seconds 60⌋).natAbs ++ ',' ::
            natPad 3 (⌊pymod seconds 1 * 1000⌋).natAbs)) := by
    simp only [seconds_to_srt_time, e1, e2, e3, e4, intPad]
    rw [if_neg (not_lt.2 hh), if_neg (not_lt.2 hm), if_neg (not_lt.2 hs), if_neg (not_lt.2 hms)]
  have hval : parse_srt_time (seconds_to_srt_time seconds) =
      some (((⌊seconds / 3600⌋).natAbs : ℚ) * 3600 +
        ((⌊pymod seconds 3600 / 60⌋).natAbs : ℚ) * 60 +
        ((⌊pymod seconds 60⌋).natAbs : ℚ) + ((⌊pymod seconds 1 * 1000⌋).natAbs : ℚ) / 1000) := by
    rw [hrepr, parse_srt_time_digits _ _ _ _ (natPad_ne_nil _ _) (natPad_ne_nil _ _)
      (natPad_ne_nil _ _) (natPad_ne_nil _ _) (natPad_all_digits _ _) (natPad_all_digits _ _)
      (natPad_all_digits _ _) (natPad_all_digits _ _)]
    rw [parseDigitsNat_natPad, parseDigitsNat_natPad, parseDigitsNat_natPad,
      parseDigitsNat_natPad]
  have cast1 : ((⌊seconds / 3600⌋).natAbs : ℚ) = ((⌊seconds / 3600⌋ : ℤ) : ℚ) := by
    rw [Int.cast_natAbs, abs_of_nonneg (by exact_mod_cast hh)]
  have cast2 : ((⌊pymod seconds 3600 / 60⌋).natAbs : ℚ) =
      ((⌊pymod seconds 3600 / 60⌋ : ℤ) : ℚ) := by
    rw [Int.cast_natAbs, abs_of_nonneg (by exact_mod_cast hm)]
  have cast3 : ((⌊pymod seconds 60⌋).natAbs : ℚ) = ((⌊pymod seconds 60⌋ : ℤ) : ℚ) := by
    rw [Int.cast_natAbs, abs_of_nonneg (by exact_mod_cast hs)]
  have cast4 : ((⌊pymod seconds 1 * 1000⌋).natAbs : ℚ) =
      ((⌊pymod seconds 1 * 1000⌋ : ℤ) : ℚ) := by
    rw [Int.cast_natAbs, abs_of_nonneg (by exact_mod_cast hms)]
  have f1 : ⌊pymod seconds 3600 / 60⌋ = ⌊seconds / 60⌋ - 60 * ⌊seconds / 3600⌋ := by
    have hx : pymod seconds 3600 / 60 = seconds / 60 - ((60 * ⌊seconds / 3600⌋ : ℤ) : ℚ) := by
      unfold pymod
      push_cast
      ring
    rw [hx, Int.floor_sub_int]
  have f2 : ⌊pymod seconds 60⌋ = ⌊seconds⌋ - 60 * ⌊seconds / 60⌋ := by
    have hx : pymod seconds 60 = seconds - ((60 * ⌊seconds / 60⌋ : ℤ) : ℚ) := by
      unfold pymod
      push_cast
      ring
    rw [hx, Int.floor_sub_int]
  have f3 : ⌊pymod seconds 1 * 1000⌋ = ⌊1000 * seconds⌋ - 1000 * ⌊seconds⌋ := by
    have hdiv1 : seconds / 1 = seconds := div_one seconds
    have hx : pymod seconds 1 * 1000 = 1000 * seconds - ((1000 * ⌊seconds⌋ : ℤ) : ℚ) := by
      unfold pymod
      rw [hdiv1]
      push_cast
      ring
    rw [hx, Int.floor_sub_int]
  have lb := Int.floor_le (1000 * seconds)
  have ub := Int.lt_floor_add_one (1000 * seconds)
  refine ⟨?_, by linarith, by linarith⟩
  rw [hval, cast1, cast2, cast3, cast4, f1, f2, f3]
  congr 1
  push_cast
  ring

/-- C6 witness: the round trip at `4000.5` seconds (`01:06:40,500`). -/
theorem claim_C6_witness :
    parse_srt_time (seconds_to_srt_time (8001 / 2 : ℚ)) =
        some ((⌊1000 * (8001 / 2 : ℚ)⌋ : ℚ) / 1000) ∧
      (⌊1000 * (8001 / 2 : ℚ)⌋ : ℚ) / 1000 ≤ (8001 / 2 : ℚ) ∧
      (8001 / 2 : ℚ) - 1 / 1000 < (⌊1000 * (8001 / 2 : ℚ)⌋ : ℚ) / 1000 :=
  claim_C6 (8001 / 2) (by norm_num)

/-- C10: `parse_srt_time` accepts any `A:B:C,D` with the four fields
arbitrary nonempty digit runs — the two-digit/three-digit `HH:MM:SS,mmm`
shape is not enforced — and returns `A*3600 + B*60 + C + D/1000`. -/
theorem claim_C10 (a b c d4 : List Char)
    (ha : a ≠ []) (hb : b ≠ []) (hc : c ≠ []) (hd : d4 ≠ [])
    (ha2 : a.all isDigitChar = true) (hb2 : b.all isDigitChar = true)
    (hc2 : c.all isDigitChar = true) (hd2 : d4.all isDigitChar = true) :
    parse_srt_time (a ++ ':' :: (b ++ ':' :: (c ++ ',' :: d4))) =
      some ((parseDigitsNat a : ℚ) * 3600 + (parseDigitsNat b : ℚ) * 60 +
        (parseDigitsNat c : ℚ) + (parseDigitsNat d4 : ℚ) / 1000) :=
  parse_srt_time_digits a b c d4 ha hb hc hd ha2 hb2 hc2 hd2

/-- C10 witness: the nonstandard timestamp `1:2:3,4` parses to `3723.004`. -/
theorem claim_C10_witness :
    parse_srt_time ("1:2:3,4").data =
        some ((parseDigitsNat ("1").data : ℚ) * 3600 + (parseDigitsNat ("2").data : ℚ) * 60 +
          (parseDigitsNat ("3").data : ℚ) + (parseDigitsNat ("4").data : ℚ) / 1000) ∧
      parse_srt_time ("1:2:3,4").data = some (3723004 / 1000 : ℚ) := by
  constructor
  · have h := claim_C10 ("1").data ("2").data ("3").data ("4").data
      (by decide) (by decide) (by decide) (by decide)
      (by decide) (by decide) (by decide) (by decide)
    have hsh : ("1:2:3,4").data =
        ("1").data ++ ':' :: (("2").data ++ ':' :: (("3").data ++ ',' :: ("4").data)) := by
      decide
    rw [hsh]
    exact h
  · decide

/-- A block whose processing raises the uncaught timestamp error aborts the
whole block loop: nothing is returned, regardless of other blocks. -/
theorem parse_blocks_none_of_fatal :
    ∀ {bs : List (List Char)} {b : List Char}, b ∈ bs →
      parse_block b = BlockResult.fatal → parse_blocks bs = none := by
  intro bs
  induction bs with
  | nil => intro b h; cases h
  | cons x xs ih =>
    intro b hmem hf
    rcases List.mem_cons.1 hmem with rfl | hmem2
    · simp only [parse_blocks, hf]
    · rw [parse_blocks]
      cases hx : parse_block x with
      | skip => exact ih hmem2 hf
      | fatal => rfl
      | entry e => rw [ih hmem2 hf]; rfl

/-- C7: if any block of the input passes the structural checks (at least
three lines, integer first line, `" --> "` in the second line, which splits
into exactly two sides) but either side's timestamp fails to parse, then the
failure propagates out of the whole parse: `parse_srt_file` returns nothing
at all (the Python exception aborts the entire file's processing; it is not
caught per block). -/
theorem claim_C7 (content block l0 l1 l2 : List Char) (ltail : List (List Char))
    (k : ℤ) (st et : List Char)
    (hmem : block ∈ pysplit (pystrip content) ['\n', '\n'])
    (hlines : pysplit (pystrip block) ['\n'] = l0 :: l1 :: l2 :: ltail)
    (hint : pyInt l0 = some k)
    (harrow : containsSub l1 srtArrow = true)
    (hsp : pysplit l1 srtArrow = [st, et])
    (hbad : parse_srt_time (pystrip st) = none ∨ parse_srt_time (pystrip et) = none) :
    parse_srt_file content = none := by
  have hfatal : parse_block block = BlockResult.fatal := by
    simp only [parse_block, hlines, hint, harrow, if_true, hsp]
    rcases hbad with h | h
    · simp [h]
    · cases hst : parse_srt_time (pystrip st) with
      | none => simp [hst]
      | some v => simp [hst, h]
  exact parse_blocks_none_of_fatal hmem hfatal

/-- C7 witness: a single structurally valid block whose end timestamp
`00:00:xx,000` is malformed aborts the whole parse. -/
theorem claim_C7_witness :
    parse_srt_file ("1\n00:00:00,000 --> 00:00:xx,000\nhello").data = none :=
  claim_C7 ("1\n00:00:00,000 --> 00:00:xx,000\nhello").data
    ("1\n00:00:00,000 --> 00:00:xx,000\nhello").data
    ("1").data ("00:00:00,000 --> 00:00:xx,000").data ("hello").data [] 1
    ("00:00:00,000").data ("00:00:xx,000").data
    (by decide) (by decide) (by decide) (by decide) (by decide)
    (Or.inr (by decide))

/-- C8: a block that fails any structural check — fewer than three lines, a
first line that is not an integer, or no `" --> "` in the second line — is
silently discarded: processing the block list with it is identical to
processing without it (no error is raised and no entry is produced, so one
such block just lowers the entry count). -/
theorem claim_C8 (block : List Char) (rest : List (List Char))
    (h : (pysplit (pystrip block) ['\n']).length < 3 ∨
      pyInt ((pysplit (pystrip block) ['\n']).headD []) = none ∨
      containsSub ((pysplit (pystrip block) ['\n']).getD 1 []) srtArrow = false) :
    parse_blocks (block :: rest) = parse_blocks rest := by
  have hskip : parse_block block = BlockResult.skip := by
    rcases hl : pysplit (pystrip block) ['\n'] with - | ⟨l0, - | ⟨l1, - | ⟨l2, ltail⟩⟩⟩
    · rw [parse_block, hl]
    · rw [parse_block, hl]
    · rw [parse_block, hl]
    · rw [hl] at h
      rcases h with h | h | h
      · simp only [List.length_cons] at h
        omega
      · rw [List.headD_cons] at h
        simp only [parse_block, hl, h]
      · rw [show (l0 :: l1 :: l2 :: ltail).getD 1 [] = l1 from rfl] at h
        cases hpi : pyInt l0 with
        | none => simp only [parse_block, hl, hpi]
        | some kk => simp only [parse_block, hl, hpi, h, Bool.false_eq_true, if_false]
  simp only [parse_blocks, hskip]

/-- C8 witness: the spec's scenario — the block with first line `"abc"` is
dropped with no error, and the file containing it parses to just the one
entry of the well-formed block (count down by one, no exception). -/
theorem claim_C8_witness :
    parse_blocks [("abc\n00:00:00,000 --> 00:00:01,000\nhi").data,
        ("2\n00:00:02,000 --> 00:00:03,000\nyo").data] =
      parse_blocks [("2\n00:00:02,000 --> 00:00:03,000\nyo").data] ∧
      parse_srt_file
          ("abc\n00:00:00,000 --> 00:00:01,000\nhi\n\n2\n00:00:02,000 --> 00:00:03,000\nyo").data =
        some [⟨2, 2, 3, ("yo").data⟩] := by
  constructor
  · exact claim_C8 ("abc\n00:00:00,000 --> 00:00:01,000\nhi").data
      [("2\n00:00:02,000 --> 00:00:03,000\nyo").data] (Or.inr (Or.inl (by decide)))
  · decide

end SplitSrt
